import Mathlib

/-!
Shallow embedding of the benchmark orchestration engine in `bench/manager.go`
(`Manager` and its methods), together with proofs about the error-budget,
scoring, purge, identity-prefetch and scaling behaviour.

Modelling conventions:
* Go `int64` values are modelled as `Int`; Go integer division on `int64`
  truncates toward zero, which is `Int.tdiv`.
* The tunable package constants (`AllowErrorMin`, `AllowErrorMax`,
  `AddUsersOnShare`, `AddUsersOnNatural`, `DefaultWorkers`,
  `BruteForceWorkers`) are declared in another file of the package; here they
  are a parameter record `Consts`.
* Concurrency is serialised: each method is a pure state transformer on the
  `Manager` record, locks are dropped.
* An `error` return value is modelled as `Bool`/`Option`/`Except` as
  appropriate; the error list holds the error strings.
-/

set_option autoImplicit false
set_option linter.unusedVariables false

namespace IsuconBench

/-- The package-level tuning constants used by `Manager` (declared outside
`manager.go`). -/
structure Consts where
  AllowErrorMin : Nat
  AllowErrorMax : Nat
  AddUsersOnShare : Nat
  AddUsersOnNatural : Nat
  DefaultWorkers : Nat
  BruteForceWorkers : Nat
deriving DecidableEq

/-- A `SharedTrade` event emitted by an investor (amount and price are Go
`int64`). -/
structure SharedTrade where
  amount : Int
  price : Int
deriving DecidableEq

/-- The observable state of an `Investor` as consumed by `Manager.Next`:
the lifecycle predicates, whether `Next()` currently returns a task
(`hasNext`), the pending `SharedTrades()` events and `LatestTradePrice()`. -/
structure Investor where
  isRetired : Bool
  isStarted : Bool
  isStartCompleted : Bool
  hasNext : Bool
  sharedTrades : List SharedTrade
  latestTradePrice : Int
deriving DecidableEq

/-- The constructor arguments of `NewRandomInvestor(cl, credit, isu,
unitamount, price)`: how a newly admitted actor is seeded. -/
structure InvestorConfig where
  credit : Int
  isu : Int
  unitamount : Int
  price : Int
deriving DecidableEq

/-- A `taskworker.Task` produced by `Manager.Start` / `Manager.Next`:
either an investor's `Start()` task, an investor's own `Next()` work task,
or a deferred admission task (the `NewExecTask` closure built in
`addInvestors`, carrying the seed configuration of the investor it will
admit). -/
inductive Task where
  | startT (inv : Investor)
  | workT (inv : Investor)
  | admitT (cfg : InvestorConfig)
deriving DecidableEq

/-- The mutable fields of `Manager` relevant to the verified claims:
`investors`, `score`, `errors`, `level`, `overError`. -/
structure Manager where
  investors : List Investor
  score : Int
  errors : List String
  level : Nat
  overError : Bool
deriving DecidableEq

/-- The `Manager` state produced by `NewManager`: empty investor list, zero
score, empty error list, level 0, `overError` unset. -/
def NewManager : Manager :=
  { investors := [], score := 0, errors := [], level := 0, overError := false }

/-- `Manager.AddScore`: atomically add to the score counter. -/
def AddScore (m : Manager) (score : Int) : Manager :=
  { m with score := m.score + score }

/-- `Manager.GetScore`: atomically read the score counter. -/
def GetScore (m : Manager) : Int :=
  m.score

/-- The error-limit computation inside `Manager.AppendError`:
`errorLimit := GetScore() / 20`, floored at `AllowErrorMin` and capped at
`AllowErrorMax`. -/
def errorLimit (C : Consts) (m : Manager) : Int :=
  let el := (GetScore m).tdiv 20
  if el < (C.AllowErrorMin : Int) then (C.AllowErrorMin : Int)
  else if el > (C.AllowErrorMax : Int) then (C.AllowErrorMax : Int)
  else el

/-- `Manager.AppendError`: a nil error is ignored; otherwise the error is
appended to the list and, when the error limit is reached, `overError` is set
and the distinguished budget-exceeded error is returned. The second component
is `true` exactly when that distinguished error is returned. -/
def AppendError (C : Consts) (m : Manager) (e : Option String) : Manager × Bool :=
  match e with
  | none => (m, false)
  | some s =>
      let errors := m.errors ++ [s]
      let ec := errors.length
      if errorLimit C m ≤ (ec : Int) then
        ({ m with errors := errors, overError := true }, true)
      else
        ({ m with errors := errors }, false)

/-- `Manager.ErrorCount`: the length of the error list. -/
def ErrorCount (m : Manager) : Nat :=
  m.errors.length

/-- Fold `Manager.AppendError` over a sequence of recorded errors. -/
def AppendErrors (C : Consts) (m : Manager) : List (Option String) → Manager
  | [] => m
  | e :: es => AppendErrors C (AppendError C m e).1 es

/-- `Manager.TotalScore`: `0` once `overError` is set; otherwise the raw
score minus `score / (AllowErrorMax * 2)` per recorded error. -/
def TotalScore (C : Consts) (m : Manager) : Int :=
  if m.overError then 0
  else
    let score := GetScore m
    let demerit := score.tdiv ((C.AllowErrorMax : Int) * 2)
    score - demerit * (ErrorCount m : Int)

/-- `Manager.PurgeInvestor`: scan the investor list once; retired investors
are closed (second component, in scan order), the others survive in order
(first component). -/
def PurgeInvestor : List Investor → List Investor × List Investor
  | [] => ([], [])
  | i :: rest =>
      let r := PurgeInvestor rest
      if i.isRetired then (r.1, i :: r.2)
      else (i :: r.1, r.2)

/-- One iteration of the loop body of `Manager.RunIDFetcher`: a fresh id is
minted and registered with `isubank.NewBankID`; `regSucceeded` records
whether that registration succeeded. On failure the error is only logged
(`log.Printf`) and the iteration proceeds; the id is sent to the `idlist`
channel (modelled as a FIFO list) unconditionally. -/
def RunIDFetcherStep (regSucceeded : Bool) (id : String) (idlist : List String) :
    List String :=
  idlist ++ [id]

/-- `Manager.FetchNewID`: receive from the `idlist` channel (the oldest
buffered id), or block (`none`) when the buffer is empty. -/
def FetchNewID (idlist : List String) : Option (String × List String) :=
  match idlist with
  | [] => none
  | x :: xs => some (x, xs)

/-- The base price local to `Manager.Start`. -/
def basePrice : Int := 5105

/-- The seed configuration of the `i`-th default investor built by
`Manager.Start`: odd index `NewRandomInvestor(cl, 100000, 0, 1,
basePrice+i/2)`, even index `NewRandomInvestor(cl, 0, 5, 1, basePrice+i/2)`. -/
def startInvestorCfg (i : Nat) : InvestorConfig :=
  if i % 2 == 1 then ⟨100000, 0, 1, basePrice + (i / 2 : Nat)⟩
  else ⟨0, 5, 1, basePrice + (i / 2 : Nat)⟩

/-- The default-population seed configurations built by `Manager.Start`
(`DefaultWorkers` many, indexed construction). -/
def startDefaultCfgs (C : Consts) : List InvestorConfig :=
  (List.range C.DefaultWorkers).map startInvestorCfg

/-- The seed configuration of the `i`-th investor built by the
`addInvestors` closure inside `Manager.Next`: odd index
`NewRandomInvestor(cl, price*1000, 0, unitamount, price-2)`, even index
`NewRandomInvestor(cl, 0, unitamount*100, unitamount, price+5)`. -/
def addInvestorCfg (i : Nat) (unitamount price : Int) : InvestorConfig :=
  if i % 2 == 1 then ⟨price * 1000, 0, unitamount, price - 2⟩
  else ⟨0, unitamount * 100, unitamount, price + 5⟩

/-- The `addInvestors(num, unitamount, price)` closure inside
`Manager.Next`: append `num` deferred admission tasks, one per index. -/
def addInvestorsTasks (num : Nat) (unitamount price : Int) : List Task :=
  (List.range num).map (fun i => Task.admitT (addInvestorCfg i unitamount price))

/-- The start-throttling loop of `Manager.Next`: walk the investor list with
a budget (`start := 2`), emitting a `Start()` task for each not-yet-started
investor and decrementing the budget; break as soon as the budget is
exhausted. -/
def startTasksLoop : List Investor → Int → List Task
  | [], _ => []
  | i :: rest, start =>
      let r := if !i.isStarted then ([Task.startT i], start - 1) else ([], start)
      if r.2 ≤ 0 then r.1
      else r.1 ++ startTasksLoop rest r.2

/-- The main per-investor loop of `Manager.Next`: skip investors that have
not completed their start or are retired; otherwise collect the investor's
own `Next()` task (when any), then `AddUsersOnShare` admission tasks per
`SharedTrade` event, and track `latestTradePrice` (initialised to 5000).
Returns the collected tasks and the final latest trade price. -/
def shareLoop (C : Consts) : List Investor → Int → List Task × Int
  | [], ltp => ([], ltp)
  | i :: rest, ltp =>
      if !i.isStartCompleted then shareLoop C rest ltp
      else if i.isRetired then shareLoop C rest ltp
      else
        let ts1 := if i.hasNext then [Task.workT i] else []
        let ts2 := i.sharedTrades.flatMap
          (fun tr => addInvestorsTasks C.AddUsersOnShare tr.amount tr.price)
        let r := shareLoop C rest i.latestTradePrice
        (ts1 ++ ts2 ++ r.1, r.2)

/-- The natural-growth loop at the end of `Manager.Next`: while
`score >= (1 << level) * 100`, stop if `AllowErrorMin < ErrorCount()`,
otherwise increment the level and append `AddUsersOnNatural` admission tasks
with unit amount `level + 1` (the just-incremented level plus one) at the
latest trade price. Returns the final level and the appended tasks. -/
def naturalGrowth (C : Consts) (ec : Nat) (score : Int) (ltp : Int)
    (level : Nat) : Nat × List Task :=
  if score < (((1 <<< level) * 100 : Nat) : Int) then (level, [])
  else if C.AllowErrorMin < ec then (level, [])
  else
    let r := naturalGrowth C ec score ltp (level + 1)
    (r.1, addInvestorsTasks C.AddUsersOnNatural (((level + 1) + 1 : Nat) : Int) ltp ++ r.2)
termination_by score.toNat + 1 - level
decreasing_by
  have h1 : ¬ score < (((1 <<< level) * 100 : Nat) : Int) := by assumption
  rw [not_lt] at h1
  have h2 : (1 <<< level) * 100 ≤ score.toNat := by
    have h3 := Int.toNat_le_toNat h1
    rwa [Int.toNat_natCast] at h3
  have h4 : level + 1 ≤ 1 <<< level := by
    rw [Nat.one_shiftLeft]
    exact Nat.lt_two_pow level
  omega

/-- The purged investor list: what `c.investors` holds right after the
`PurgeInvestor` call at the top of `Manager.Next`. -/
def activeInvestors (m : Manager) : List Investor :=
  (PurgeInvestor m.investors).1

/-- `Manager.Next`: purge retired investors; fail when no active investor
remains; otherwise emit up to two `Start()` tasks, the per-investor work and
share-admission tasks, then the natural-growth admission tasks, and record
the (possibly increased) level. -/
def NextM (C : Consts) (m : Manager) : Except String (List Task × Manager) :=
  let investors := (PurgeInvestor m.investors).1
  if investors.length = 0 then
    Except.error "アクティブユーザーがいなくなりました"
  else
    let ts0 := startTasksLoop investors 2
    let sl := shareLoop C investors 5000
    let ng := naturalGrowth C (ErrorCount m) (GetScore m) sl.2 m.level
    Except.ok (ts0 ++ sl.1 ++ ng.2, { m with investors := investors, level := ng.1 })

/-- The operations that mutate the score / error-budget state concurrently
with the run: `AddScore` and `AppendError`. -/
inductive Op where
  | add (score : Int)
  | record (e : Option String)
deriving DecidableEq

/-- Apply one `Op` to the manager state. -/
def step (C : Consts) (m : Manager) : Op → Manager
  | .add d => AddScore m d
  | .record e => (AppendError C m e).1

/-- Apply a sequence of `Op`s to the manager state. -/
def runOps (C : Consts) (m : Manager) (ops : List Op) : Manager :=
  ops.foldl (step C) m

/-- A sample constant record matching the values used in the spec's
end-to-end example (`ErrorMin = 5`, `ErrorMax = 100`). -/
def Cdefault : Consts := ⟨5, 100, 2, 10, 26, 4⟩

/-- A sample constant record with a tiny error budget (`ErrorMin = 1`), so a
single recorded error voids the run. -/
def Ctiny : Consts := ⟨1, 2, 2, 10, 26, 4⟩

/-- A sample active investor: not retired, started, start-completed, no
pending work, no share events. -/
def invSample : Investor := ⟨false, true, true, false, [], 5000⟩

/-- A sample active investor that has emitted one
`SharedTrade(amount 10, price 5000)` event. -/
def invShare : Investor := ⟨false, true, true, false, [⟨10, 5000⟩], 5000⟩

/-- A sample manager state holding exactly `invSample`. -/
def mSample : Manager := ⟨[invSample], 0, [], 0, false⟩

/-- The manager state after the four nil `AppendError` calls of the spec's
end-to-end example. -/
def mP10base : Manager := AppendErrors Cdefault NewManager [none, none, none, none]

/-- The manager state of the spec's end-to-end example: four nil records,
one real error, then 8000 points of score. -/
def mP10 : Manager := AddScore (AppendError Cdefault mP10base (some "error")).1 8000

/-! ## Helper lemmas -/

theorem errorLimit_eq_clamp (C : Consts) (m : Manager)
    (hC : C.AllowErrorMin ≤ C.AllowErrorMax) :
    errorLimit C m
      = max (C.AllowErrorMin : Int)
          (min (C.AllowErrorMax : Int) ((GetScore m).tdiv 20)) := by
  have hC2 : (C.AllowErrorMin : Int) ≤ (C.AllowErrorMax : Int) := by exact_mod_cast hC
  simp only [errorLimit]
  split
  · omega
  · split
    · omega
    · omega

theorem AppendError_none (C : Consts) (m : Manager) :
    AppendError C m none = (m, false) := rfl

theorem AppendError_some_errors (C : Consts) (m : Manager) (s : String) :
    (AppendError C m (some s)).1.errors = m.errors ++ [s] := by
  simp only [AppendError]
  split <;> rfl

theorem AppendError_some_snd (C : Consts) (m : Manager) (s : String) :
    (AppendError C m (some s)).2 = true
      ↔ errorLimit C m ≤ ((m.errors.length + 1 : Nat) : Int) := by
  simp only [AppendError, List.length_append, List.length_cons, List.length_nil]
  split <;> rename_i h
  · simpa using h
  · simpa using h

theorem AppendError_some_overError (C : Consts) (m : Manager) (s : String) :
    (AppendError C m (some s)).1.overError
      = ((AppendError C m (some s)).2 || m.overError) := by
  simp only [AppendError]
  split <;> simp

theorem AppendError_snd_overError (C : Consts) (m : Manager) (e : Option String)
    (h : (AppendError C m e).2 = true) : (AppendError C m e).1.overError = true := by
  cases e with
  | none => simp [AppendError] at h
  | some s =>
      rw [AppendError_some_overError, h]
      rfl

theorem ErrorCount_AppendError_some (C : Consts) (m : Manager) (s : String) :
    ErrorCount (AppendError C m (some s)).1 = ErrorCount m + 1 := by
  rw [ErrorCount, AppendError_some_errors]
  simp [ErrorCount]

theorem ErrorCount_AppendErrors (C : Consts) (es : List (Option String)) :
    ∀ m : Manager,
      ErrorCount (AppendErrors C m es) = ErrorCount m + es.countP (fun e => e.isSome) := by
  induction es with
  | nil => intro m; simp [AppendErrors]
  | cons e es ih =>
      intro m
      rw [AppendErrors, ih]
      cases e with
      | none => simp [AppendError, List.countP_cons]
      | some s => simp [ErrorCount_AppendError_some, List.countP_cons]; omega

theorem step_overError (C : Consts) (m : Manager) (op : Op)
    (h : m.overError = true) : (step C m op).overError = true := by
  cases op with
  | add d => exact h
  | record e =>
      cases e with
      | none => exact h
      | some s => rw [step, AppendError_some_overError, h]; simp

theorem runOps_overError (C : Consts) (ops : List Op) :
    ∀ m : Manager, m.overError = true → (runOps C m ops).overError = true := by
  induction ops with
  | nil => intro m h; exact h
  | cons op ops ih =>
      intro m h
      exact ih (step C m op) (step_overError C m op h)

theorem TotalScore_overError (C : Consts) (m : Manager)
    (h : m.overError = true) : TotalScore C m = 0 := by
  simp [TotalScore, h]

theorem PurgeInvestor_eq (l : List Investor) :
    PurgeInvestor l
      = (l.filter (fun i => !i.isRetired), l.filter (fun i => i.isRetired)) := by
  induction l with
  | nil => rfl
  | cons i rest ih =>
      rw [PurgeInvestor, ih]
      by_cases h : i.isRetired = true <;> simp [List.filter_cons, h]

/-! ## Claims -/

/-- Claim C9: `PurgeInvestor` removes exactly the retired investors (closing
each of them), preserves the relative order of the survivors, and is
idempotent: a second consecutive call removes and closes nothing. -/
theorem claimC9 (l : List Investor) :
    (PurgeInvestor l).1 = l.filter (fun i => !i.isRetired)
    ∧ (PurgeInvestor l).2 = l.filter (fun i => i.isRetired)
    ∧ (PurgeInvestor l).1.Sublist l
    ∧ PurgeInvestor (PurgeInvestor l).1 = ((PurgeInvestor l).1, []) := by
  rw [PurgeInvestor_eq]
  refine ⟨rfl, rfl, List.filter_sublist l, ?_⟩
  rw [PurgeInvestor_eq]
  simp [List.filter_filter]

/-- Claim C2: `AppendError(nil)` is a no-op returning no failure; for a
non-nil error, `AppendError` appends it to the error list and returns the
distinguished budget-exceeded failure (simultaneously setting the voided
flag) exactly when the new error count reaches the ceiling
`clamp(GetScore()/20, AllowErrorMin, AllowErrorMax)`; and `ErrorCount` after
a sequence of record calls counts exactly the non-nil ones. -/
theorem claimC2 (C : Consts) (hC : C.AllowErrorMin ≤ C.AllowErrorMax) :
    (∀ m : Manager, AppendError C m none = (m, false))
    ∧ (∀ (m : Manager) (s : String),
        (AppendError C m (some s)).1.errors = m.errors ++ [s]
        ∧ ((AppendError C m (some s)).2 = true ↔
            max (C.AllowErrorMin : Int)
                (min (C.AllowErrorMax : Int) ((GetScore m).tdiv 20))
              ≤ ((m.errors.length + 1 : Nat) : Int))
        ∧ (AppendError C m (some s)).1.overError
            = ((AppendError C m (some s)).2 || m.overError))
    ∧ (∀ (m : Manager) (es : List (Option String)),
        ErrorCount (AppendErrors C m es)
          = ErrorCount m + es.countP (fun e => e.isSome)) := by
  refine ⟨fun m => rfl, fun m s => ⟨AppendError_some_errors C m s, ?_, AppendError_some_overError C m s⟩,
    fun m es => ErrorCount_AppendErrors C es m⟩
  rw [AppendError_some_snd, errorLimit_eq_clamp C m hC]

/-- Witness for C2 at a concrete state: a nil record call is a no-op. -/
theorem claimC2_witness : AppendError Cdefault NewManager none = (NewManager, false) :=
  (claimC2 Cdefault (by decide)).1 NewManager

/-- Claim C3: while the run is not voided, `TotalScore()` is
`GetScore() - (GetScore() / (2*AllowErrorMax)) * ErrorCount()` under
truncating division; and in the spec's end-to-end example (`ErrorMin = 5`,
`ErrorMax = 100`, four nil records, one real error, then 8000 score) the
error count is 1, no budget-exceeded failure is raised, and the total score
is 7960. -/
theorem claimC3 (C : Consts) (m : Manager) (h : m.overError = false) :
    TotalScore C m
      = GetScore m - ((GetScore m).tdiv (2 * (C.AllowErrorMax : Int))) * (ErrorCount m : Int)
    ∧ (ErrorCount mP10 = 1
       ∧ (AppendError Cdefault mP10base (some "error")).2 = false
       ∧ TotalScore Cdefault mP10 = 7960) := by
  constructor
  · rw [TotalScore, if_neg (by simp [h]), Int.mul_comm]
  · exact ⟨by decide, by decide, by decide⟩

/-- Witness for C3 at a concrete non-voided state. -/
theorem claimC3_witness :
    TotalScore Cdefault NewManager
      = GetScore NewManager
        - ((GetScore NewManager).tdiv (2 * (Cdefault.AllowErrorMax : Int)))
          * (ErrorCount NewManager : Int)
    ∧ (ErrorCount mP10 = 1
       ∧ (AppendError Cdefault mP10base (some "error")).2 = false
       ∧ TotalScore Cdefault mP10 = 7960) :=
  claimC3 Cdefault NewManager rfl

/-- Claim C1: once a call to `AppendError` has returned the distinguished
budget-exceeded failure, the voided flag is set, and after any further
sequence of `AddScore` / `AppendError` operations the flag is still set and
`TotalScore()` returns 0. -/
theorem claimC1 (C : Consts) (m : Manager) (e : Option String)
    (h : (AppendError C m e).2 = true) :
    (AppendError C m e).1.overError = true
    ∧ ∀ ops : List Op,
        (runOps C (AppendError C m e).1 ops).overError = true
        ∧ TotalScore C (runOps C (AppendError C m e).1 ops) = 0 := by
  have h1 := AppendError_snd_overError C m e h
  refine ⟨h1, fun ops => ?_⟩
  have h2 := runOps_overError C ops _ h1
  exact ⟨h2, TotalScore_overError C _ h2⟩

/-- Witness for C1: with `AllowErrorMin = 1` the first real error voids the
run, and after a further score addition and a nil record the reported total
score is still 0. -/
theorem claimC1_witness :
    (runOps Ctiny (AppendError Ctiny NewManager (some "x")).1
        [Op.add 100, Op.record none]).overError = true
    ∧ TotalScore Ctiny
        (runOps Ctiny (AppendError Ctiny NewManager (some "x")).1
          [Op.add 100, Op.record none]) = 0 :=
  (claimC1 Ctiny NewManager (some "x") (by decide)).2 [Op.add 100, Op.record none]

theorem errorLimit_le_max (C : Consts) (m : Manager)
    (hC : C.AllowErrorMin ≤ C.AllowErrorMax) :
    errorLimit C m ≤ (C.AllowErrorMax : Int) := by
  have hC2 : (C.AllowErrorMin : Int) ≤ (C.AllowErrorMax : Int) := by exact_mod_cast hC
  simp only [errorLimit]
  split
  · exact hC2
  · split
    · omega
    · omega

theorem BudgetInv_step (C : Consts) (hC : C.AllowErrorMin ≤ C.AllowErrorMax)
    (m : Manager) (hm : m.overError = false → ErrorCount m < C.AllowErrorMax)
    (op : Op) :
    (step C m op).overError = false → ErrorCount (step C m op) < C.AllowErrorMax := by
  cases op with
  | add d => exact hm
  | record e =>
      cases e with
      | none => exact hm
      | some s =>
          intro hov
          have hsnd : (AppendError C m (some s)).2 = false := by
            by_contra hx
            have hx2 : (AppendError C m (some s)).2 = true := by
              cases h : (AppendError C m (some s)).2
              · exact absurd h hx
              · rfl
            have := AppendError_snd_overError C m (some s) hx2
            rw [step] at hov
            rw [this] at hov
            exact absurd hov (by simp)
          have hlim : ¬ errorLimit C m ≤ ((m.errors.length + 1 : Nat) : Int) := by
            intro hle
            rw [(AppendError_some_snd C m s).mpr hle] at hsnd
            exact absurd hsnd (by simp)
          have hmax := errorLimit_le_max C m hC
          have hcount : ErrorCount (step C m (Op.record (some s))) = m.errors.length + 1 := by
            rw [step, ErrorCount_AppendError_some]
            rfl
          rw [hcount]
          omega

theorem BudgetInv_runOps (C : Consts) (hmin : 0 < C.AllowErrorMin)
    (hC : C.AllowErrorMin ≤ C.AllowErrorMax) (ops : List Op) :
    (runOps C NewManager ops).overError = false
      → ErrorCount (runOps C NewManager ops) < C.AllowErrorMax := by
  suffices h : ∀ m : Manager,
      (m.overError = false → ErrorCount m < C.AllowErrorMax)
      → ((runOps C m ops).overError = false
          → ErrorCount (runOps C m ops) < C.AllowErrorMax) by
    exact h NewManager (fun _ => by simpa [ErrorCount, NewManager] using Nat.lt_of_lt_of_le hmin hC)
  induction ops with
  | nil => intro m hm; exact hm
  | cons op ops ih =>
      intro m hm
      exact ih (step C m op) (BudgetInv_step C hC m hm op)

theorem demerit_le_half (M : Nat) (hM : 0 < M) (s : Int) (hs : 0 ≤ s)
    (ec : Nat) (hec : ec ≤ M) :
    (s.tdiv (2 * (M : Int))) * (ec : Int) ≤ s.tdiv 2 := by
  have h2M : (0 : Int) < 2 * (M : Int) := by positivity
  rw [Int.tdiv_eq_ediv hs (le_of_lt h2M), Int.tdiv_eq_ediv hs (by norm_num)]
  have hd0 : 0 ≤ s / (2 * (M : Int)) := Int.ediv_nonneg hs (le_of_lt h2M)
  have h1 : s / (2 * (M : Int)) * (ec : Int) ≤ s / (2 * (M : Int)) * (M : Int) := by
    apply mul_le_mul_of_nonneg_left _ hd0
    exact_mod_cast hec
  refine le_trans h1 ?_
  rw [Int.le_ediv_iff_mul_le (by norm_num : (0 : Int) < 2)]
  calc s / (2 * (M : Int)) * (M : Int) * 2
      = s / (2 * (M : Int)) * (2 * (M : Int)) := by ring
    _ ≤ s := Int.ediv_mul_le s (ne_of_gt h2M)

/-- Claim C10 (implicit): in every state reachable from the fresh manager by
`AddScore` / `AppendError` operations, with non-negative score and the run
not voided, the error count is strictly below `AllowErrorMax`; hence the
demerit `GetScore()/(2*AllowErrorMax) * ErrorCount()` is at most half the
raw score and `TotalScore()` is at least `GetScore()/2`. -/
theorem claimC10 (C : Consts) (hmin : 0 < C.AllowErrorMin)
    (hC : C.AllowErrorMin ≤ C.AllowErrorMax) (ops : List Op)
    (hov : (runOps C NewManager ops).overError = false)
    (hs : 0 ≤ GetScore (runOps C NewManager ops)) :
    ErrorCount (runOps C NewManager ops) < C.AllowErrorMax
    ∧ ((GetScore (runOps C NewManager ops)).tdiv (2 * (C.AllowErrorMax : Int)))
          * (ErrorCount (runOps C NewManager ops) : Int)
        ≤ (GetScore (runOps C NewManager ops)).tdiv 2
    ∧ (GetScore (runOps C NewManager ops)).tdiv 2
        ≤ TotalScore C (runOps C NewManager ops) := by
  have hinv := BudgetInv_runOps C hmin hC ops hov
  have hMpos : 0 < C.AllowErrorMax := Nat.lt_of_lt_of_le hmin hC
  have hhalf := demerit_le_half C.AllowErrorMax hMpos
    (GetScore (runOps C NewManager ops)) hs
    (ErrorCount (runOps C NewManager ops)) (le_of_lt hinv)
  refine ⟨hinv, hhalf, ?_⟩
  have hts : TotalScore C (runOps C NewManager ops)
      = GetScore (runOps C NewManager ops)
        - ((GetScore (runOps C NewManager ops)).tdiv (2 * (C.AllowErrorMax : Int)))
          * (ErrorCount (runOps C NewManager ops) : Int) := by
    rw [TotalScore, if_neg (by simp [hov]), Int.mul_comm]
  rw [hts]
  have h2 : (GetScore (runOps C NewManager ops)).tdiv 2 * 2
      ≤ GetScore (runOps C NewManager ops) := by
    rw [Int.tdiv_eq_ediv hs (by norm_num)]
    exact Int.ediv_mul_le _ (by norm_num)
  omega

/-- Witness for C10: after one real error and 8000 points, the error count
is below the ceiling and the effective score is at least half the raw one. -/
theorem claimC10_witness :
    ErrorCount (runOps Cdefault NewManager [Op.record (some "e"), Op.add 8000])
        < Cdefault.AllowErrorMax
    ∧ ((GetScore (runOps Cdefault NewManager [Op.record (some "e"), Op.add 8000])).tdiv
          (2 * (Cdefault.AllowErrorMax : Int)))
          * (ErrorCount (runOps Cdefault NewManager [Op.record (some "e"), Op.add 8000]) : Int)
        ≤ (GetScore (runOps Cdefault NewManager [Op.record (some "e"), Op.add 8000])).tdiv 2
    ∧ (GetScore (runOps Cdefault NewManager [Op.record (some "e"), Op.add 8000])).tdiv 2
        ≤ TotalScore Cdefault (runOps Cdefault NewManager [Op.record (some "e"), Op.add 8000]) :=
  claimC10 Cdefault (by decide) (by decide) [Op.record (some "e"), Op.add 8000]
    (by decide) (by decide)

theorem natural_level_bound (score : Int) (level : Nat)
    (h : ¬ score < (((1 <<< level) * 100 : Nat) : Int)) : level + 1 ≤ score.toNat := by
  rw [not_lt] at h
  have h2 : (1 <<< level) * 100 ≤ score.toNat := by
    have h3 := Int.toNat_le_toNat h
    rwa [Int.toNat_natCast] at h3
  have h4 : level + 1 ≤ 1 <<< level := by
    rw [Nat.one_shiftLeft]
    exact Nat.lt_two_pow level
  omega

theorem naturalGrowth_level_le (C : Consts) (ec : Nat) (score ltp : Int) :
    ∀ (n level : Nat), score.toNat + 1 - level ≤ n
      → level ≤ (naturalGrowth C ec score ltp level).1 := by
  intro n
  induction n with
  | zero =>
      intro level h
      rw [naturalGrowth]
      split
      · exact le_refl level
      · rename_i h1
        exact absurd h (by have := natural_level_bound score level h1; omega)
  | succ n ih =>
      intro level h
      rw [naturalGrowth]
      split
      · exact le_refl level
      · rename_i h1
        split
        · exact le_refl level
        · have hb := natural_level_bound score level h1
          have := ih (level + 1) (by omega)
          simpa using Nat.le_trans (Nat.le_succ level) this

/-- Claim C4: the natural-growth step of `Next` repeats while
`score >= 2^level * 100`; if the error count exceeds `AllowErrorMin` no
level-up happens even when the score qualifies; otherwise each iteration
increments the level and produces one batch of `AddUsersOnNatural` admission
tasks with the new `level + 1` as unit amount at the latest observed trade
price; a single call may cross several thresholds; the level never
decreases; and with score 100 and level 0 exactly one level-up occurs. -/
theorem claimC4 (C : Consts) :
    (∀ (ec : Nat) (score ltp : Int) (level : Nat),
        level ≤ (naturalGrowth C ec score ltp level).1)
    ∧ (∀ (ec : Nat) (score ltp : Int) (level : Nat),
        C.AllowErrorMin < ec → naturalGrowth C ec score ltp level = (level, []))
    ∧ (∀ (ec : Nat) (ltp : Int), ec ≤ C.AllowErrorMin →
        naturalGrowth C ec 100 ltp 0
          = (1, addInvestorsTasks C.AddUsersOnNatural 2 ltp))
    ∧ (∀ (ec : Nat) (ltp : Int), ec ≤ C.AllowErrorMin →
        naturalGrowth C ec 400 ltp 0
          = (3, addInvestorsTasks C.AddUsersOnNatural 2 ltp
                ++ addInvestorsTasks C.AddUsersOnNatural 3 ltp
                ++ addInvestorsTasks C.AddUsersOnNatural 4 ltp)) := by
  refine ⟨?_, ?_, ?_, ?_⟩
  · intro ec score ltp level
    exact naturalGrowth_level_le C ec score ltp (score.toNat + 1 - level) level (le_refl _)
  · intro ec score ltp level h
    rw [naturalGrowth]
    split
    · rfl
    · rfl
  · intro ec ltp h
    rw [naturalGrowth]
    rw [if_neg (by decide), if_neg (by omega)]
    rw [naturalGrowth]
    rw [if_pos (by decide)]
    simp
  · intro ec ltp h
    rw [naturalGrowth]
    rw [if_neg (by decide), if_neg (by omega)]
    rw [naturalGrowth]
    rw [if_neg (by decide), if_neg (by omega)]
    rw [naturalGrowth]
    rw [if_neg (by decide), if_neg (by omega)]
    rw [naturalGrowth]
    rw [if_pos (by decide)]
    simp

/-- Witness for C4: with score 100, level 0 and no recorded errors, exactly
one level-up occurs and one batch of natural-growth admissions with unit
amount 2 is produced. -/
theorem claimC4_witness :
    naturalGrowth Cdefault 0 100 5000 0
      = (1, addInvestorsTasks Cdefault.AddUsersOnNatural 2 5000) :=
  (claimC4 Cdefault).2.2.1 0 5000 (by decide)

/-- Counterexample to C5 as stated: the claim puts the credit-seeded buyer
at every even index, but at even index 0 both `Start`'s default construction
and `Next`'s `addInvestors` construction produce the inventory-seeded seller
with zero credit. -/
theorem claimC5_counterexample :
    ¬ (((startInvestorCfg 0).credit > 0 ∧ (startInvestorCfg 0).isu = 0)
       ∧ ((addInvestorCfg 0 10 5000).credit > 0 ∧ (addInvestorCfg 0 10 5000).isu = 0)) := by
  decide

/-- Claim C5 (amended): in every admission batch — `Start`'s default
population and each `addInvestors` batch inside `Next` — construction
alternates by index parity, with the price-making seller seeded with
inventory and no credit at every even index (at price `price + 5` in `Next`
batches) and the price-taking buyer seeded with credit and no inventory at
every odd index (at price `price - 2` in `Next` batches). -/
theorem claimC5 :
    (∀ (i : Nat) (u p : Int),
      (i % 2 = 0 →
        startInvestorCfg i = ⟨0, 5, 1, basePrice + (i / 2 : Nat)⟩
        ∧ addInvestorCfg i u p = ⟨0, u * 100, u, p + 5⟩)
      ∧ (i % 2 = 1 →
        startInvestorCfg i = ⟨100000, 0, 1, basePrice + (i / 2 : Nat)⟩
        ∧ addInvestorCfg i u p = ⟨p * 1000, 0, u, p - 2⟩))
    ∧ (∀ (C : Consts) (i : Nat), i < C.DefaultWorkers →
        (startDefaultCfgs C)[i]? = some (startInvestorCfg i))
    ∧ (∀ (n i : Nat) (u p : Int), i < n →
        (addInvestorsTasks n u p)[i]? = some (Task.admitT (addInvestorCfg i u p))) := by
  refine ⟨?_, ?_, ?_⟩
  · intro i u p
    constructor
    · intro h
      constructor
      · rw [startInvestorCfg, if_neg (by simp [h])]
      · rw [addInvestorCfg, if_neg (by simp [h])]
    · intro h
      constructor
      · rw [startInvestorCfg, if_pos (by simp [h])]
      · rw [addInvestorCfg, if_pos (by simp [h])]
  · intro C i h
    simp [startDefaultCfgs, List.getElem?_map, List.getElem?_range, h]
  · intro n i u p h
    simp [addInvestorsTasks, List.getElem?_map, List.getElem?_range, h]

/-- Witness for C5 (amended) at even index 0. -/
theorem claimC5_witness :
    startInvestorCfg 0 = ⟨0, 5, 1, basePrice + ((0 : Nat) / 2 : Nat)⟩
    ∧ addInvestorCfg 0 10 5000 = ⟨0, 10 * 100, 10, 5000 + 5⟩ :=
  (claimC5.1 0 10 5000).1 rfl

/-- Counterexample to C6 as stated: the claim says an identity whose
registration failed is never buffered, but one iteration of the fetcher loop
with a failed registration still enqueues the identity, and `FetchNewID`
then hands it out. -/
theorem claimC6_counterexample :
    ¬ RunIDFetcherStep false "id1" [] = []
    ∧ RunIDFetcherStep false "id1" [] = ["id1"]
    ∧ FetchNewID (RunIDFetcherStep false "id1" []) = some ("id1", []) := by
  refine ⟨by simp [RunIDFetcherStep], rfl, rfl⟩

/-- Claim C6 (amended): when a minted identity's external registration call
fails, the failure is only logged and the loop continues with the next
iteration — but the identity is enqueued regardless of the registration
outcome, so it may still be handed out by `FetchNewID`. -/
theorem claimC6 (regSucceeded : Bool) (id : String) (idlist : List String) :
    RunIDFetcherStep regSucceeded id idlist = idlist ++ [id]
    ∧ RunIDFetcherStep false id idlist = RunIDFetcherStep true id idlist :=
  ⟨rfl, rfl⟩

theorem startTasksLoop_all_started (l : List Investor)
    (h : ∀ i ∈ l, i.isStarted = true) : ∀ s : Int, startTasksLoop l s = [] := by
  induction l with
  | nil => intro s; rfl
  | cons i rest ih =>
      intro s
      have hi : i.isStarted = true := h i (List.mem_cons_self i rest)
      have ih2 := ih (fun j hj => h j (List.mem_cons_of_mem i hj))
      simp [startTasksLoop, hi]
      exact fun _ => ih2 s

theorem shareLoop_no_tasks (C : Consts) (l : List Investor)
    (h : ∀ i ∈ l, i.hasNext = false ∧ i.sharedTrades = []) :
    ∀ p : Int, (shareLoop C l p).1 = [] := by
  induction l with
  | nil => intro p; rfl
  | cons i rest ih =>
      intro p
      have hi := h i (List.mem_cons_self i rest)
      have ih2 := ih (fun j hj => h j (List.mem_cons_of_mem i hj))
      rw [shareLoop]
      split
      · exact ih2 p
      · split
        · exact ih2 p
        · simp [hi.1, hi.2, ih2]

theorem naturalGrowth_break (C : Consts) (ec : Nat) (score ltp : Int) (level : Nat)
    (h : score < (((1 <<< level) * 100 : Nat) : Int) ∨ C.AllowErrorMin < ec) :
    naturalGrowth C ec score ltp level = (level, []) := by
  rcases h with h | h
  · rw [naturalGrowth, if_pos h]
  · rw [naturalGrowth]
    split
    · rfl
    · rfl

/-- Claim C7: `Next` purges retired investors first and returns the
distinguished "no active investors" error exactly when none remain after the
purge; when at least one active investor remains but all are started, none
has pending work, no share event fires and the natural-growth condition does
not fire, `Next` returns an empty task batch and no error, leaving the level
unchanged. -/
theorem claimC7 (C : Consts) (m : Manager) :
    ((∃ e, NextM C m = Except.error e) ↔ activeInvestors m = [])
    ∧ (activeInvestors m ≠ [] →
        (∀ i ∈ activeInvestors m,
          i.isStarted = true ∧ i.hasNext = false ∧ i.sharedTrades = []) →
        (GetScore m < (((1 <<< m.level) * 100 : Nat) : Int)
          ∨ C.AllowErrorMin < ErrorCount m) →
        NextM C m = Except.ok ([], { m with investors := activeInvestors m })) := by
  constructor
  · constructor
    · rintro ⟨e, he⟩
      by_cases h : (PurgeInvestor m.investors).1.length = 0
      · exact List.length_eq_zero.mp h
      · simp only [NextM, if_neg h] at he
        exact Except.noConfusion he
    · intro h
      refine ⟨"アクティブユーザーがいなくなりました", ?_⟩
      have hl : (PurgeInvestor m.investors).1.length = 0 := by
        simp only [activeInvestors] at h
        simp [h]
      simp only [NextM, if_pos hl]
  · intro hne hall hbreak
    have hl : ¬ (PurgeInvestor m.investors).1.length = 0 := by
      simp only [activeInvestors] at hne
      simpa [List.length_eq_zero] using hne
    have h0 : startTasksLoop (PurgeInvestor m.investors).1 2 = [] :=
      startTasksLoop_all_started _ (fun i hi => (hall i hi).1) 2
    have h1 : (shareLoop C (PurgeInvestor m.investors).1 5000).1 = [] :=
      shareLoop_no_tasks C _ (fun i hi => ⟨(hall i hi).2.1, (hall i hi).2.2⟩) 5000
    have h2 : naturalGrowth C (ErrorCount m) (GetScore m)
        (shareLoop C (PurgeInvestor m.investors).1 5000).2 m.level = (m.level, []) :=
      naturalGrowth_break C _ _ _ _ hbreak
    simp only [NextM, if_neg hl]
    rw [h0, h1, h2]
    rfl

/-- Witness for C7: a manager holding one started, start-completed,
non-retired investor with no pending work produces an empty non-error
batch. -/
theorem claimC7_witness :
    NextM Cdefault mSample
      = Except.ok ([], { mSample with investors := activeInvestors mSample }) :=
  (claimC7 Cdefault mSample).2 (by decide) (by decide) (by decide)

/-- Whether a task is a deferred admission task. -/
def isAdmitTask : Task → Bool
  | Task.admitT _ => true
  | _ => false

theorem mem_addInvestorsTasks_isAdmit (n : Nat) (a p : Int) :
    ∀ t ∈ addInvestorsTasks n a p, isAdmitTask t = true := by
  intro t ht
  simp only [addInvestorsTasks, List.mem_map] at ht
  obtain ⟨k, hk, rfl⟩ := ht
  rfl

theorem filter_shareAdmits (C : Consts) (trades : List SharedTrade) :
    (trades.flatMap
        (fun tr => addInvestorsTasks C.AddUsersOnShare tr.amount tr.price)).filter isAdmitTask
      = trades.flatMap (fun tr => addInvestorsTasks C.AddUsersOnShare tr.amount tr.price) := by
  apply List.filter_eq_self.mpr
  intro t ht
  simp only [List.mem_flatMap] at ht
  obtain ⟨tr, htr, ht⟩ := ht
  exact mem_addInvestorsTasks_isAdmit _ _ _ t ht

theorem shareLoop_filter_admits (C : Consts) (l : List Investor)
    (h : ∀ i ∈ l, i.isRetired = false) :
    ∀ p : Int,
      (shareLoop C l p).1.filter isAdmitTask
        = l.flatMap (fun i =>
            if i.isStartCompleted then
              i.sharedTrades.flatMap
                (fun tr => addInvestorsTasks C.AddUsersOnShare tr.amount tr.price)
            else []) := by
  induction l with
  | nil => intro p; rfl
  | cons i rest ih =>
      intro p
      have hi := h i (List.mem_cons_self i rest)
      have ih2 := ih (fun j hj => h j (List.mem_cons_of_mem i hj))
      cases hc : i.isStartCompleted with
      | false =>
          rw [shareLoop, if_pos (by simp [hc])]
          rw [List.flatMap_cons, if_neg (by simp [hc]), ih2]
          rfl
      | true =>
          rw [shareLoop, if_neg (by simp [hc]), if_neg (by simp [hi])]
          rw [List.flatMap_cons, if_pos hc]
          dsimp only
          rw [List.filter_append, List.filter_append, filter_shareAdmits, ih2]
          have hts1 : (if i.hasNext = true then [Task.workT i] else []).filter isAdmitTask
              = [] := by
            split <;> rfl
          rw [hts1]
          simp

theorem shareLoop_single_trade (C : Consts) (inv : Investor)
    (h1 : inv.isRetired = false) (h2 : inv.isStartCompleted = true)
    (h3 : inv.hasNext = false) (h4 : inv.sharedTrades = [⟨10, 5000⟩]) :
    ∀ p : Int, (shareLoop C [inv] p).1 = addInvestorsTasks C.AddUsersOnShare 10 5000 := by
  intro p
  rw [shareLoop, if_neg (by simp [h2]), if_neg (by simp [h1])]
  simp [h3, h4, shareLoop]

/-- Claim C8: for every active, non-retired, start-completed investor and
each of its `SharedTrade` events, the share loop of `Next` produces exactly
`AddUsersOnShare` admission tasks parameterized by that event's amount and
price; in particular one `SharedTrade(amount 10, price 5000)` yields exactly
the `AddUsersOnShare` admissions parameterized by `(10, 5000)`. -/
theorem claimC8 (C : Consts) :
    (∀ (l : List Investor) (p : Int), (∀ i ∈ l, i.isRetired = false) →
        (shareLoop C l p).1.filter isAdmitTask
          = l.flatMap (fun i =>
              if i.isStartCompleted then
                i.sharedTrades.flatMap
                  (fun tr => addInvestorsTasks C.AddUsersOnShare tr.amount tr.price)
              else []))
    ∧ (∀ (n : Nat) (a p : Int),
        (addInvestorsTasks n a p).length = n
        ∧ ∀ t ∈ addInvestorsTasks n a p,
            ∃ k, k < n ∧ t = Task.admitT (addInvestorCfg k a p))
    ∧ (∀ inv : Investor,
        inv.isRetired = false → inv.isStartCompleted = true → inv.hasNext = false →
        inv.sharedTrades = [⟨10, 5000⟩] →
        ∀ p : Int, (shareLoop C [inv] p).1 = addInvestorsTasks C.AddUsersOnShare 10 5000) := by
  refine ⟨fun l p h => shareLoop_filter_admits C l h p, fun n a p => ⟨?_, ?_⟩,
    shareLoop_single_trade C⟩
  · simp [addInvestorsTasks]
  · intro t ht
    simp only [addInvestorsTasks, List.mem_map, List.mem_range] at ht
    obtain ⟨k, hk, rfl⟩ := ht
    exact ⟨k, hk, rfl⟩

/-- Witness for C8: a single active investor with one
`SharedTrade(amount 10, price 5000)` event yields exactly the
`AddUsersOnShare` admission batch parameterized by `(10, 5000)`. -/
theorem claimC8_witness :
    (shareLoop Cdefault [invShare] 5000).1
      = addInvestorsTasks Cdefault.AddUsersOnShare 10 5000 :=
  (claimC8 Cdefault).2.2 invShare rfl rfl rfl rfl 5000

end IsuconBench
